import Mathlib

set_option maxHeartbeats 1000000
set_option maxRecDepth 10000

namespace GanttCore

/-!
Shallow embedding of the task-hierarchy / timeline-geometry engine
(`App.tsx`: `compareTasks`, `buildTaskRows`, `getTaskRange`, `timelineRange`,
`timelineTicks`, `dependencyLines`, and the `gantt__bars` geometry), over the
`Task` record of `types.ts`.

Dates: the source stores nullable strings and resolves them with `parseDate`
(`new Date(value)` plus a NaN check), yielding either a valid point in time or
`null`.  We embed a date-like field as that resolved outcome, `Option Int`
(milliseconds since the epoch), `none` meaning null-or-unparseable.  Numeric
geometry (ratios, percentages, pixel offsets) is embedded in exact rational
arithmetic `Rat`; IEEE-754 double rounding is not modelled.
-/

/-- The `Task` record of `types.ts`.  `status` is one of the four status
strings; it is only used for CSS class selection and never inspected by the
engine. -/
structure Task where
  id : Nat
  projectId : Nat
  name : String
  status : String
  parentTaskId : Option Nat
  dependsOn : List Nat
  startDate : Option Int
  dueDate : Option Int
deriving DecidableEq

/-- `parseDate`: resolves a nullable date-like value into a valid point in
time or `none`.  On the embedded representation (already the resolved
outcome, see the module docstring) it is the identity. -/
def parseDate (value : Option Int) : Option Int := value

/-- `compareTasks`: the JS comparator returns `aStart - bStart` (with a
missing start treated as `Number.POSITIVE_INFINITY`) when the start keys
differ, else `a.name.localeCompare(b.name)`.  We return the sign of that
number as an `Ordering`.  The name tie-break models
`String.prototype.localeCompare` as code-unit lexicographic comparison (the
locale-independent fallback; host-locale collation tables are not
modelled). -/
def compareTasks (a b : Task) : Ordering :=
  match parseDate a.startDate, parseDate b.startDate with
  | some x, some y => if x ≠ y then compare x y else compare a.name b.name
  | some _, none => Ordering.lt
  | none, some _ => Ordering.gt
  | none, none => compare a.name b.name

/-- `.slice().sort(compareTasks)`: a stable sort by the comparator
(ECMAScript requires `Array.prototype.sort` to be stable). -/
def sortTasks (l : List Task) : List Task :=
  l.mergeSort fun a b => compareTasks a b != Ordering.gt

/-- The `byParent` grouping of `buildTaskRows`: `byParent.get(key) ?? []`.
The `Map` groups tasks by `task.parentTaskId ?? null` preserving input
order, so a lookup is exactly the order-preserving filter. -/
def byParentGet (tasks : List Task) (key : Option Nat) : List Task :=
  tasks.filter fun t => t.parentTaskId == key

/-- A row of the outline: `{ task, depth, number }` as pushed by `visit`. -/
structure Row where
  task : Task
  depth : Nat
  number : String
deriving DecidableEq

mutual

/-- The `visit` closure of `buildTaskRows`: pushes the row for `task`, then
visits the sorted children bucket at `depth + 1`.  The JS recursion has no
termination guard, so the embedding carries explicit fuel; `none` models the
(potential) divergence when fuel runs out.  `visit_isSome` below shows that
fuel `tasks.length` always suffices when task identifiers are unique. -/
def visit (tasks : List Task) : Nat → Task → Nat → String → Option (List Row)
  | 0, _, _, _ => none
  | fuel+1, task, depth, number =>
    match visitSibs tasks fuel
        (sortTasks (byParentGet tasks (some task.id)))
        (depth + 1) (number ++ ".") 1 with
    | none => none
    | some tail => some (⟨task, depth, number⟩ :: tail)

/-- `children.forEach((child, index) => visit(child, depth + 1,
`number + "." + (index+1)`))`, and likewise the root loop: visits each
remaining sibling in order.  `pre` is the number prefix (`""` for roots,
parent number followed by `"."` otherwise) and `pos` the 1-based position of
the first remaining sibling. -/
def visitSibs (tasks : List Task) (fuel : Nat) :
    List Task → Nat → String → Nat → Option (List Row)
  | [], _, _, _ => some []
  | c :: rest, depth, pre, pos =>
    match visit tasks fuel c depth (pre ++ Nat.repr pos) with
    | none => none
    | some block =>
      match visitSibs tasks fuel rest depth pre (pos + 1) with
      | none => none
      | some more => some (block ++ more)

end

/-- `buildTaskRows` at a given fuel: the root loop
`roots.forEach((root, index) => visit(root, 0, `${index+1}`))` over the
sorted null-parent bucket. -/
def buildTaskRowsFuel (tasks : List Task) (fuel : Nat) : Option (List Row) :=
  visitSibs tasks fuel (sortTasks (byParentGet tasks none)) 0 "" 1

/-- `buildTaskRows(tasks)`.  Fuel `tasks.length` is always sufficient for
task collections with unique identifiers (`buildTaskRows_isSome`). -/
def buildTaskRows (tasks : List Task) : Option (List Row) :=
  buildTaskRowsFuel tasks tasks.length

/-- The interval record returned by `getTaskRange`; the source field `end`
is a reserved word in Lean and is embedded as `stop`. -/
structure DateRange where
  start : Int
  stop : Int
deriving DecidableEq

/-- `getTaskRange`: `start = parseDate(task.startDate)`,
`end = parseDate(task.dueDate) ?? start`, `null` unless both are present. -/
def getTaskRange (task : Task) : Option DateRange :=
  let start := parseDate task.startDate
  let stop := (parseDate task.dueDate).orElse fun _ => start
  match start, stop with
  | some s, some e => some ⟨s, e⟩
  | _, _ => none

/-- The derived timeline range.  The source record also carries `start` and
`end` as `Date` objects re-wrapping the same `startMs`/`endMs` instants; we
keep the numeric forms. -/
structure TimelineRange where
  startMs : Int
  endMs : Int
deriving DecidableEq

/-- `timelineRange`: `null` when no task yields a range, else
`Math.min`/`Math.max` over the interval starts and ends of all contributing
tasks. -/
def timelineRange (tasks : List Task) : Option TimelineRange :=
  match tasks.filterMap getTaskRange with
  | [] => none
  | r :: rs =>
    some { startMs := rs.foldl (fun m x => min m x.start) r.start
           endMs := rs.foldl (fun m x => max m x.stop) r.stop }

/-- `Math.max(1, timelineRange.endMs - timelineRange.startMs)`: the clamped
duration used as the divisor in the tick, bar and dependency-line
computations (the source recomputes this expression at each use site). -/
def rangeMsOf (tr : TimelineRange) : Int := max 1 (tr.endMs - tr.startMs)

/-- An axis tick.  The source stores `label = formatShortDate(new
Date(tickDate))`; `toLocaleDateString` rendering is locale-dependent, so we
keep `tickDate`, the instant fed to the formatter. -/
structure Tick where
  tickDate : Rat
  position : Rat
deriving DecidableEq

/-- `timelineTicks`: five ticks (`tickCount = 4`, loop `0 ≤ i ≤ tickCount`)
at ratios `i / tickCount`, or `[]` when the range is absent. -/
def timelineTicks (tasks : List Task) : List Tick :=
  match timelineRange tasks with
  | none => []
  | some tr =>
    let tickCount : Nat := 4
    let rangeMs : Int := rangeMsOf tr
    (List.range (tickCount + 1)).map fun i =>
      let ratio : Rat := (i : Rat) / (tickCount : Rat)
      { tickDate := (tr.startMs : Rat) + (rangeMs : Rat) * ratio
        position := ratio * 100 }

/-- `ROW_HEIGHT = 48`. -/
def ROW_HEIGHT : Rat := 48

/-- `taskIndexById`: the `Map` built by
`taskRows.forEach((row, index) => map.set(row.task.id, index))`.  A later
`set` for the same id overwrites an earlier one, so a lookup returns the
index of the last row carrying that id (unique when ids are unique). -/
def taskIndexById (rows : List Row) (i : Nat) : Option Nat :=
  ((rows.enum.filter fun p => p.2.task.id == i).getLast?).map fun p => p.1

/-- A dependency arrow: `{ id, x1, y1, x2, y2 }` with
`id = dependencyId + "-" + row.task.id`. -/
structure DepLine where
  id : String
  x1 : Rat
  y1 : Rat
  x2 : Rat
  y2 : Rat
deriving DecidableEq

/-- `index * ROW_HEIGHT + ROW_HEIGHT / 2`: the `toY` row-center mapping. -/
def toY (index : Nat) : Rat := (index : Rat) * ROW_HEIGHT + ROW_HEIGHT / 2

/-- `dependencyLines`: `[]` when the range is absent or `timelineWidth` is
`0`; otherwise one line per task row with a resolvable interval and per
dependency id that is found in `taskIndexById` and whose task's interval
resolves, anchored at (dependency end, dependency row center) →
(dependent start, dependent row center).  `rows` is the `taskRows` list the
component computed from the same task collection (tie the two together with
`buildTaskRows tasks = some rows`). -/
def dependencyLines (tasks : List Task) (rows : List Row) (width : Rat) :
    List DepLine :=
  match timelineRange tasks with
  | none => []
  | some tr =>
    if width = 0 then []
    else
      let rangeMs : Int := rangeMsOf tr
      let toX : Int → Rat := fun ms =>
        ((ms - tr.startMs : Int) : Rat) / (rangeMs : Rat) * width
      (rows.enum.map fun p =>
        match getTaskRange p.2.task with
        | none => []
        | some taskRange =>
          p.2.task.dependsOn.filterMap fun dependencyId =>
            match taskIndexById rows dependencyId with
            | none => none
            | some dependencyIndex =>
              match rows[dependencyIndex]? with
              | none => none
              | some depRow =>
                match getTaskRange depRow.task with
                | none => none
                | some dependencyRange =>
                  some { id := Nat.repr dependencyId ++ "-" ++ Nat.repr p.2.task.id
                         x1 := toX dependencyRange.stop
                         y1 := toY dependencyIndex
                         x2 := toX taskRange.start
                         y2 := toY p.1 }).flatten

/-- The styled geometry of one task bar in `gantt__bars`: the inline
`top`/`left`/`width` style values (top in pixels, left and width in
percent). -/
structure Bar where
  top : Rat
  left : Rat
  width : Rat
deriving DecidableEq

/-- The `gantt__bars` map over `taskRows`: a row whose interval (or the
overall range) is unresolvable renders a bare placeholder span (`none`);
otherwise a bar with `left = (start - startMs) / rangeMs * 100`,
`width = max((end - start) / rangeMs * 100, 1)` and
`top = index * ROW_HEIGHT + ROW_HEIGHT / 2 - 8`. -/
def ganttBars (tasks : List Task) (rows : List Row) : List (Option Bar) :=
  rows.enum.map fun p =>
    match getTaskRange p.2.task, timelineRange tasks with
    | some range, some tr =>
      let rangeMs : Int := rangeMsOf tr
      let left : Rat := ((range.start - tr.startMs : Int) : Rat) / (rangeMs : Rat) * 100
      let width : Rat := ((range.stop - range.start : Int) : Rat) / (rangeMs : Rat) * 100
      some { top := (p.1 : Rat) * ROW_HEIGHT + ROW_HEIGHT / 2 - 8
             left := left
             width := max width 1 }
    | _, _ => none

/-- `PathOK tasks path t`: `path` is a chain of ancestor identifiers of `t`
(nearest ancestor first), each witnessed by a task of the collection, ending
at a root (a task with no parent reference).  This is exactly the ancestor
chain the `visit` recursion has walked when it reaches `t`. -/
def PathOK (tasks : List Task) : List Nat → Task → Prop
  | [], t => t.parentTaskId = none
  | p :: rest, t =>
    t.parentTaskId = some p ∧ ∃ pt, pt ∈ tasks ∧ pt.id = p ∧ PathOK tasks rest pt

/-- The parent-link decomposition of a row `r` inside a row list: its
parent row `pr` (carrying identifier `p`) occurs strictly before `r`, `r`
lies inside the contiguous block `B` of rows strictly deeper than `pr` that
immediately follows `pr` (hence before any row of a different branch), its
depth is the parent's depth plus one, and its number extends the parent's
number by `"."` and its own 1-based position in the parent's sorted child
bucket. -/
def LinkedRow (tasks : List Task) (rows : List Row) (r : Row) (p : Nat) : Prop :=
  ∃ A B C pr, rows = A ++ pr :: (B ++ C) ∧ pr.task.id = p ∧
    r.depth = pr.depth + 1 ∧ r ∈ B ∧ (∀ x ∈ B, pr.depth < x.depth) ∧
    ∃ i : Nat, ∃ hi : i < (sortTasks (byParentGet tasks (some p))).length,
      (sortTasks (byParentGet tasks (some p))).get ⟨i, hi⟩ = r.task ∧
      r.number = pr.number ++ "." ++ Nat.repr (i + 1)

/-- Invariant of the row block emitted by `visitSibs` for the remaining
sibling list `sibs` at `depth`, with number prefix `pre` and first remaining
1-based position `pos`: depths are at least `depth`; rows deeper than
`depth` carry a parent reference; every number extends `pre` with the
decimal digits of some position `k ≥ pos`, optionally followed by a dotted
suffix; numbers are pairwise distinct; depth-`depth` rows are exactly the
siblings at their 1-based positions; and every row with a parent reference
is either a sibling head or parent-linked inside the block. -/
def SibsBlockInv (tasks : List Task) (sibs : List Task) (depth : Nat)
    (pre : String) (pos : Nat) (rows : List Row) : Prop :=
  (∀ x ∈ rows, depth ≤ x.depth) ∧
  (∀ r ∈ rows, r.depth ≠ depth → ∃ p, r.task.parentTaskId = some p) ∧
  (∀ r ∈ rows, ∃ k, pos ≤ k ∧
    (r.number.data = pre.data ++ (Nat.repr k).data ∨
      ∃ s, r.number.data = pre.data ++ (Nat.repr k).data ++ '.' :: s)) ∧
  ((rows.map Row.number).Nodup) ∧
  (∀ r ∈ rows, r.depth = depth → ∃ i : Nat, ∃ hi : i < sibs.length,
    sibs.get ⟨i, hi⟩ = r.task ∧
    r.number.data = pre.data ++ (Nat.repr (pos + i)).data) ∧
  (∀ r ∈ rows, ∀ p, r.task.parentTaskId = some p →
    r.depth = depth ∨ LinkedRow tasks rows r p)

/-- Reference form of the decimal digit character list of `n` (most
significant digit first); used to reason about `Nat.repr`, which renders
the 1-based positions inside hierarchical number strings and the numeric
ids inside dependency-line id strings. -/
def natDigs (n : Nat) : List Char :=
  if h : n < 10 then [Nat.digitChar n]
  else
    have : n / 10 < n := Nat.div_lt_self (by omega) (by omega)
    natDigs (n / 10) ++ [Nat.digitChar (n % 10)]

/-- Sample input: a scheduled root task with id 1. -/
def depA : Task := ⟨1, 1, "A", "planned", none, [], some 0, some 100⟩

/-- Sample input: a scheduled child (parent id 1) with id 2 depending on
task 1. -/
def depB : Task := ⟨2, 1, "B", "planned", some 1, [1], some 10, some 50⟩

/-- The row list `buildTaskRows` produces for `[depA, depB]`. -/
def depRows : List Row := [⟨depA, 0, "1"⟩, ⟨depB, 1, "1.1"⟩]

/-! ## Helper lemmas: fold characterizations for `timelineRange` -/

theorem foldl_min_le_init (l : List DateRange) (init : Int) :
    l.foldl (fun m x => min m x.start) init ≤ init := by
  induction l generalizing init with
  | nil => simp
  | cons a t ih => exact le_trans (ih _) (min_le_left _ _)

theorem foldl_min_le_mem (l : List DateRange) (init : Int) (x : DateRange)
    (hx : x ∈ l) : l.foldl (fun m x => min m x.start) init ≤ x.start := by
  induction l generalizing init with
  | nil => cases hx
  | cons a t ih =>
    rcases List.mem_cons.mp hx with h | h
    · subst h
      exact le_trans (foldl_min_le_init t _) (min_le_right _ _)
    · exact ih (min init a.start) h

theorem foldl_min_attained (l : List DateRange) (init : Int) :
    l.foldl (fun m x => min m x.start) init = init ∨
      ∃ x ∈ l, l.foldl (fun m x => min m x.start) init = x.start := by
  induction l generalizing init with
  | nil => exact Or.inl rfl
  | cons a t ih =>
    rcases ih (min init a.start) with h | ⟨x, hx, h⟩
    · rcases min_choice init a.start with hm | hm
      · exact Or.inl (by rw [List.foldl_cons, h, hm])
      · exact Or.inr ⟨a, List.mem_cons_self a t, by rw [List.foldl_cons, h, hm]⟩
    · exact Or.inr ⟨x, List.mem_cons_of_mem a hx, h⟩

theorem init_le_foldl_max (l : List DateRange) (init : Int) :
    init ≤ l.foldl (fun m x => max m x.stop) init := by
  induction l generalizing init with
  | nil => simp
  | cons a t ih => exact le_trans (le_max_left _ _) (ih _)

theorem mem_le_foldl_max (l : List DateRange) (init : Int) (x : DateRange)
    (hx : x ∈ l) : x.stop ≤ l.foldl (fun m x => max m x.stop) init := by
  induction l generalizing init with
  | nil => cases hx
  | cons a t ih =>
    rcases List.mem_cons.mp hx with h | h
    · subst h
      exact le_trans (le_max_right _ _) (init_le_foldl_max t _)
    · exact ih (max init a.stop) h

theorem foldl_max_attained (l : List DateRange) (init : Int) :
    l.foldl (fun m x => max m x.stop) init = init ∨
      ∃ x ∈ l, l.foldl (fun m x => max m x.stop) init = x.stop := by
  induction l generalizing init with
  | nil => exact Or.inl rfl
  | cons a t ih =>
    rcases ih (max init a.stop) with h | ⟨x, hx, h⟩
    · rcases max_choice init a.stop with hm | hm
      · exact Or.inl (by rw [List.foldl_cons, h, hm])
      · exact Or.inr ⟨a, List.mem_cons_self a t, by rw [List.foldl_cons, h, hm]⟩
    · exact Or.inr ⟨x, List.mem_cons_of_mem a hx, h⟩

/-- `timelineRange` is absent exactly when no task yields a range. -/
theorem timelineRange_eq_none_iff (tasks : List Task) :
    timelineRange tasks = none ↔ ∀ t ∈ tasks, getTaskRange t = none := by
  rw [← List.filterMap_eq_nil_iff]
  unfold timelineRange
  cases tasks.filterMap getTaskRange with
  | nil => simp
  | cons r rs => simp

/-- When present, `startMs` is a lower bound of all contributing interval
starts and `endMs` an upper bound of all contributing interval ends. -/
theorem timelineRange_bounds (tasks : List Task) (tr : TimelineRange)
    (htr : timelineRange tasks = some tr) (t : Task) (ht : t ∈ tasks)
    (iv : DateRange) (hiv : getTaskRange t = some iv) :
    tr.startMs ≤ iv.start ∧ iv.stop ≤ tr.endMs := by
  have hmem : iv ∈ tasks.filterMap getTaskRange :=
    List.mem_filterMap.mpr ⟨t, ht, hiv⟩
  unfold timelineRange at htr
  rcases hr : tasks.filterMap getTaskRange with _ | ⟨r, rs⟩
  · rw [hr] at hmem; cases hmem
  · rw [hr] at htr hmem
    cases htr
    rcases List.mem_cons.mp hmem with h | h
    · subst h
      exact ⟨foldl_min_le_init _ _, init_le_foldl_max _ _⟩
    · exact ⟨foldl_min_le_mem _ _ _ h, mem_le_foldl_max _ _ _ h⟩

/-- When present, both bounds are attained by a contributing task. -/
theorem timelineRange_attained (tasks : List Task) (tr : TimelineRange)
    (htr : timelineRange tasks = some tr) :
    (∃ t ∈ tasks, ∃ iv, getTaskRange t = some iv ∧ iv.start = tr.startMs) ∧
      (∃ t ∈ tasks, ∃ iv, getTaskRange t = some iv ∧ iv.stop = tr.endMs) := by
  unfold timelineRange at htr
  rcases hr : tasks.filterMap getTaskRange with _ | ⟨r, rs⟩
  · rw [hr] at htr; cases htr
  · rw [hr] at htr
    cases htr
    have hmem : ∀ x : DateRange, x ∈ r :: rs → ∃ t ∈ tasks, getTaskRange t = some x := by
      intro x hx
      have : x ∈ tasks.filterMap getTaskRange := hr ▸ hx
      rcases List.mem_filterMap.mp this with ⟨t, ht, hgt⟩
      exact ⟨t, ht, hgt⟩
    constructor
    · rcases foldl_min_attained rs r.start with h | ⟨x, hx, h⟩
      · rcases hmem r (List.mem_cons_self r rs) with ⟨t, ht, hgt⟩
        exact ⟨t, ht, r, hgt, h.symm⟩
      · rcases hmem x (List.mem_cons_of_mem r hx) with ⟨t, ht, hgt⟩
        exact ⟨t, ht, x, hgt, h.symm⟩
    · rcases foldl_max_attained rs r.stop with h | ⟨x, hx, h⟩
      · rcases hmem r (List.mem_cons_self r rs) with ⟨t, ht, hgt⟩
        exact ⟨t, ht, r, hgt, h.symm⟩
      · rcases hmem x (List.mem_cons_of_mem r hx) with ⟨t, ht, hgt⟩
        exact ⟨t, ht, x, hgt, h.symm⟩

/-! ## C4: task intervals and the overall timeline range -/

/-- C4: a task's interval is `[resolved start, resolved due]` with a missing
due date falling back to the start date; a task contributes to the range iff
its start date resolves (due date alone never suffices); when present the
overall range is `[min of interval starts, max of interval ends]` (bounds
and attainment), and when no task contributes the range is absent. -/
theorem getTaskRange_timelineRange_spec (tasks : List Task) :
    (∀ t : Task, getTaskRange t = none ↔ parseDate t.startDate = none) ∧
    (∀ t : Task, ∀ s : Int, parseDate t.startDate = some s →
      getTaskRange t = some ⟨s, (parseDate t.dueDate).getD s⟩) ∧
    (timelineRange tasks = none ↔ ∀ t ∈ tasks, getTaskRange t = none) ∧
    (∀ tr, timelineRange tasks = some tr →
      (∀ t ∈ tasks, ∀ iv, getTaskRange t = some iv →
        tr.startMs ≤ iv.start ∧ iv.stop ≤ tr.endMs) ∧
      (∃ t ∈ tasks, ∃ iv, getTaskRange t = some iv ∧ iv.start = tr.startMs) ∧
      (∃ t ∈ tasks, ∃ iv, getTaskRange t = some iv ∧ iv.stop = tr.endMs)) := by
  refine ⟨?_, ?_, timelineRange_eq_none_iff tasks, ?_⟩
  · intro t
    cases h1 : t.startDate <;> cases h2 : t.dueDate <;>
      simp [getTaskRange, parseDate, h1, h2, Option.orElse]
  · intro t s hs
    cases h2 : t.dueDate <;>
      simp [getTaskRange, parseDate, hs, h2, Option.orElse] <;>
      simp [parseDate] at hs <;> simp [hs]
  · intro tr htr
    exact ⟨fun t ht iv hiv => timelineRange_bounds tasks tr htr t ht iv hiv,
      (timelineRange_attained tasks tr htr).1,
      (timelineRange_attained tasks tr htr).2⟩

/-- Witness for C4 at a concrete input: tasks with ids 1 (start 0, due 100)
and 2 (start 40, no due date). -/
theorem getTaskRange_timelineRange_spec_witness :
    (∃ t ∈ [(⟨1, 1, "A", "planned", none, [], some 0, some 100⟩ : Task),
            ⟨2, 1, "B", "planned", none, [], some 40, none⟩],
      ∃ iv, getTaskRange t = some iv ∧ iv.start = (0 : Int)) ∧
    getTaskRange (⟨2, 1, "B", "planned", none, [], some 40, none⟩ : Task) =
      some ⟨40, (parseDate (some 40)).getD 40⟩ := by
  have h := getTaskRange_timelineRange_spec
    [(⟨1, 1, "A", "planned", none, [], some 0, some 100⟩ : Task),
     ⟨2, 1, "B", "planned", none, [], some 40, none⟩]
  refine ⟨?_, ?_⟩
  · have h4 := h.2.2.2 ⟨0, 100⟩ (by decide)
    exact h4.2.1
  · have := h.2.1 ⟨2, 1, "B", "planned", none, [], some 40, none⟩ 40 rfl
    simpa [parseDate] using this

/-! ## C1: range ordering and the clamped divisor -/

/-- C1 counterexample: a single task whose resolved due date precedes its
resolved start date makes the TimelineRange present with
`startMs > endMs`, refuting `start ≤ end` as stated. -/
theorem timelineRange_start_le_end_counterexample :
    ∃ tr, timelineRange [(⟨1, 1, "A", "planned", none, [], some 10, some 5⟩ : Task)] =
        some tr ∧ ¬ tr.startMs ≤ tr.endMs := by
  refine ⟨⟨10, 5⟩, by decide, by decide⟩

/-- C1 amended: for every task collection with a present TimelineRange,
if additionally every contributing task's interval is ordered
(`start ≤ end`, which a due date before the start date can violate), the
range satisfies `startMs ≤ endMs`; and the duration used as a divisor,
`rangeMsOf = max 1 (endMs - startMs)`, is positive — hence never zero —
unconditionally, i.e. with no ordering hypothesis, also for ranges coming
from unordered intervals. -/
theorem timelineRange_start_le_end_amended (tasks : List Task)
    (tr : TimelineRange) (htr : timelineRange tasks = some tr) :
    ((∀ t ∈ tasks, ∀ iv, getTaskRange t = some iv → iv.start ≤ iv.stop) →
      tr.startMs ≤ tr.endMs) ∧
    0 < rangeMsOf tr ∧ rangeMsOf tr ≠ 0 := by
  have h2 : 0 < rangeMsOf tr :=
    lt_of_lt_of_le Int.one_pos (le_max_left 1 (tr.endMs - tr.startMs))
  refine ⟨?_, h2, h2.ne'⟩
  intro hord
  rcases (timelineRange_attained tasks tr htr).1 with ⟨t, ht, iv, hiv, hstart⟩
  have hb := timelineRange_bounds tasks tr htr t ht iv hiv
  rw [← hstart]
  exact le_trans (hord t ht iv hiv) hb.2

/-- Witness for C1 (amended) at two concrete inputs: an ordered interval
(start 0, due 100), and the counterexample's unordered interval (start 10,
due 5) for which the divisor clamp is still positive. -/
theorem timelineRange_start_le_end_amended_witness :
    ((0 : Int) ≤ 100 ∧ 0 < rangeMsOf ⟨0, 100⟩ ∧ rangeMsOf ⟨0, 100⟩ ≠ 0) ∧
    (0 < rangeMsOf ⟨10, 5⟩ ∧ rangeMsOf ⟨10, 5⟩ ≠ 0) :=
  have h1 := timelineRange_start_le_end_amended
    [⟨1, 1, "A", "planned", none, [], some 0, some 100⟩] ⟨0, 100⟩ (by decide)
  have h2 := timelineRange_start_le_end_amended
    [⟨1, 1, "A", "planned", none, [], some 10, some 5⟩] ⟨10, 5⟩ (by decide)
  ⟨⟨h1.1 (by decide), h1.2⟩, h2.2⟩

/-! ## C9: the tick generator -/

/-- C9: when the range is present the tick generator produces exactly five
ticks at fractional offsets 0, 1/4, 2/4, 3/4, 1 of the (clamped) duration,
with positions 0, 25, 50, 75, 100 percent; when absent, no ticks. -/
theorem timelineTicks_spec (tasks : List Task) :
    (timelineRange tasks = none → timelineTicks tasks = []) ∧
    (∀ tr, timelineRange tasks = some tr →
      timelineTicks tasks =
        [⟨(tr.startMs : Rat), 0⟩,
         ⟨(tr.startMs : Rat) + (rangeMsOf tr : Rat) * (1 / 4), 25⟩,
         ⟨(tr.startMs : Rat) + (rangeMsOf tr : Rat) * (2 / 4), 50⟩,
         ⟨(tr.startMs : Rat) + (rangeMsOf tr : Rat) * (3 / 4), 75⟩,
         ⟨(tr.startMs : Rat) + (rangeMsOf tr : Rat) * 1, 100⟩] ∧
      (timelineTicks tasks).map Tick.position = [0, 25, 50, 75, 100] ∧
      (timelineTicks tasks).length = 5) := by
  constructor
  · intro h
    simp [timelineTicks, h]
  · intro tr htr
    have hlist : timelineTicks tasks =
        [⟨(tr.startMs : Rat), 0⟩,
         ⟨(tr.startMs : Rat) + (rangeMsOf tr : Rat) * (1 / 4), 25⟩,
         ⟨(tr.startMs : Rat) + (rangeMsOf tr : Rat) * (2 / 4), 50⟩,
         ⟨(tr.startMs : Rat) + (rangeMsOf tr : Rat) * (3 / 4), 75⟩,
         ⟨(tr.startMs : Rat) + (rangeMsOf tr : Rat) * 1, 100⟩] := by
      simp only [timelineTicks, htr]
      simp [List.range_succ]
      norm_num
    refine ⟨hlist, ?_, ?_⟩ <;> rw [hlist] <;> rfl

/-- Witness for C9 at a concrete input. -/
theorem timelineTicks_spec_witness :
    (timelineTicks [(⟨1, 1, "A", "planned", none, [], some 0, some 100⟩ : Task)]).map
      Tick.position = [0, 25, 50, 75, 100] :=
  ((timelineTicks_spec [⟨1, 1, "A", "planned", none, [], some 0, some 100⟩]).2
    ⟨0, 100⟩ (by decide)).2.1

/-! ## C10: task-bar geometry -/

/-- C10: for a row whose interval resolves, when the TimelineRange is
present, the emitted bar's left offset is
`(start - rangeStart) / rangeDuration * 100` percent and its width is
`max((end - start) / rangeDuration * 100, 1)` percent, hence always at
least 1% (`rangeDuration` being the clamped divisor `rangeMsOf`). -/
theorem ganttBars_spec (tasks : List Task) (rows : List Row) (i : Nat)
    (row : Row) (iv : DateRange) (tr : TimelineRange)
    (hrow : rows[i]? = some row)
    (hiv : getTaskRange row.task = some iv)
    (htr : timelineRange tasks = some tr) :
    (ganttBars tasks rows)[i]? =
      some (some
        { top := (i : Rat) * ROW_HEIGHT + ROW_HEIGHT / 2 - 8
          left := ((iv.start - tr.startMs : Int) : Rat) / ((rangeMsOf tr : Int) : Rat) * 100
          width := max (((iv.stop - iv.start : Int) : Rat) / ((rangeMsOf tr : Int) : Rat) * 100) 1 }) ∧
    (∀ b : Bar, (ganttBars tasks rows)[i]? = some (some b) → 1 ≤ b.width) := by
  have h1 : (ganttBars tasks rows)[i]? =
      some (some
        { top := (i : Rat) * ROW_HEIGHT + ROW_HEIGHT / 2 - 8
          left := ((iv.start - tr.startMs : Int) : Rat) / ((rangeMsOf tr : Int) : Rat) * 100
          width := max (((iv.stop - iv.start : Int) : Rat) / ((rangeMsOf tr : Int) : Rat) * 100) 1 }) := by
    simp only [ganttBars, List.enum, List.getElem?_map, List.getElem?_enumFrom, hrow,
      Option.map_some, Nat.zero_add, htr]
    simp [hiv]
  refine ⟨h1, ?_⟩
  intro b hb
  rw [h1] at hb
  cases hb
  exact le_max_right _ _

/-- Witness for C10 at a concrete input. -/
theorem ganttBars_spec_witness :
    (ganttBars [(⟨1, 1, "A", "planned", none, [], some 0, some 100⟩ : Task)]
        [⟨⟨1, 1, "A", "planned", none, [], some 0, some 100⟩, 0, "1"⟩])[0]? =
      some (some
        { top := (0 : Rat) * ROW_HEIGHT + ROW_HEIGHT / 2 - 8
          left := (((0 : Int) - 0 : Int) : Rat) / ((rangeMsOf ⟨0, 100⟩ : Int) : Rat) * 100
          width := max ((((100 : Int) - 0 : Int) : Rat) / ((rangeMsOf ⟨0, 100⟩ : Int) : Rat) * 100) 1 }) :=
  (ganttBars_spec [⟨1, 1, "A", "planned", none, [], some 0, some 100⟩]
    [⟨⟨1, 1, "A", "planned", none, [], some 0, some 100⟩, 0, "1"⟩] 0
    ⟨⟨1, 1, "A", "planned", none, [], some 0, some 100⟩, 0, "1"⟩
    ⟨0, 100⟩ ⟨0, 100⟩ rfl (by decide) (by decide)).1

/-! ## C3: the sibling comparator -/

/-- C3: the comparator puts the earlier resolved start date first, sorts
tasks with an unresolvable start date after all scheduled tasks (missing
start treated as +∞), and breaks start-date ties (including two missing
starts) by name, via the embedded lexicographic name comparison. -/
theorem compareTasks_spec :
    (∀ a b : Task, ∀ x y : Int, parseDate a.startDate = some x →
      parseDate b.startDate = some y → x < y → compareTasks a b = Ordering.lt) ∧
    (∀ a b : Task, parseDate a.startDate ≠ none → parseDate b.startDate = none →
      compareTasks a b = Ordering.lt) ∧
    (∀ a b : Task, parseDate a.startDate = none → parseDate b.startDate ≠ none →
      compareTasks a b = Ordering.gt) ∧
    (∀ a b : Task, parseDate a.startDate = parseDate b.startDate →
      compareTasks a b = compare a.name b.name) := by
  refine ⟨?_, ?_, ?_, ?_⟩
  · intro a b x y hx hy hlt
    simp only [compareTasks, hx, hy]
    rw [if_pos (ne_of_lt hlt)]
    exact compare_lt_iff_lt.mpr hlt
  · intro a b ha hb
    rcases Option.ne_none_iff_exists.mp ha with ⟨x, hx⟩
    simp only [compareTasks, ← hx, hb]
  · intro a b ha hb
    rcases Option.ne_none_iff_exists.mp hb with ⟨y, hy⟩
    simp only [compareTasks, ha, ← hy]
  · intro a b hab
    rcases hx : parseDate a.startDate with _ | x
    · rw [hx] at hab
      simp only [compareTasks, hx, ← hab]
    · rw [hx] at hab
      simp only [compareTasks, hx, ← hab, if_neg (fun h : x ≠ x => h rfl)]

/-- Witness for C3 at concrete inputs: an earlier start wins, a scheduled
task precedes an unscheduled one, and equal starts fall back to the name
comparison (Scenario B's "Alpha" before "Beta"). -/
theorem compareTasks_spec_witness :
    compareTasks ⟨1, 1, "B", "planned", none, [], some 0, none⟩
        ⟨2, 1, "A", "planned", none, [], some 5, none⟩ = Ordering.lt ∧
    compareTasks ⟨1, 1, "B", "planned", none, [], some 0, none⟩
        ⟨2, 1, "A", "planned", none, [], none, none⟩ = Ordering.lt ∧
    compareTasks ⟨1, 1, "Alpha", "planned", none, [], some 5, none⟩
        ⟨2, 1, "Beta", "planned", none, [], some 5, none⟩ =
      compare "Alpha" "Beta" := by
  refine ⟨?_, ?_, ?_⟩
  · exact compareTasks_spec.1 _ _ 0 5 rfl rfl (by decide)
  · exact compareTasks_spec.2.1 _ _ (by decide) rfl
  · exact compareTasks_spec.2.2.2 _ _ rfl

/-! ## Decimal rendering: facts about `Nat.repr` -/

theorem natDigs_of_lt (n : Nat) (h : n < 10) : natDigs n = [Nat.digitChar n] := by
  rw [natDigs]
  simp [h]

theorem natDigs_of_ge (n : Nat) (h : ¬ n < 10) :
    natDigs n = natDigs (n / 10) ++ [Nat.digitChar (n % 10)] := by
  rw [natDigs]
  simp [h]

theorem natDigs_ne_nil (n : Nat) : natDigs n ≠ [] := by
  by_cases h : n < 10
  · rw [natDigs_of_lt n h]
    simp
  · rw [natDigs_of_ge n h]
    simp

theorem toDigitsCore_eq_natDigs (fuel : Nat) :
    ∀ (n : Nat) (acc : List Char), n < 10 ^ fuel → 0 < fuel →
      Nat.toDigitsCore 10 fuel n acc = natDigs n ++ acc := by
  induction fuel with
  | zero => intro n acc _ hf; cases hf
  | succ f ih =>
    intro n acc hn _
    rw [Nat.toDigitsCore]
    by_cases h10 : n / 10 = 0
    · have hlt : n < 10 := (Nat.div_eq_zero_iff (by norm_num)).mp h10
      simp [h10, natDigs_of_lt n hlt, Nat.mod_eq_of_lt hlt]
    · have hge : ¬ n < 10 := by
        intro hc
        exact h10 (Nat.div_eq_of_lt hc)
      have hf' : 0 < f := by
        rcases Nat.eq_zero_or_pos f with h | h
        · subst h
          simp at hn
          omega
        · exact h
      have hdiv : n / 10 < 10 ^ f := by
        refine Nat.div_lt_of_lt_mul ?_
        rw [pow_succ] at hn
        omega
      simp only [h10, if_false]
      rw [ih (n / 10) _ hdiv hf', natDigs_of_ge n hge, List.append_assoc]
      rfl

theorem repr_eq_natDigs (n : Nat) : (Nat.repr n).data = natDigs n := by
  show (Nat.toDigits 10 n).asString.data = natDigs n
  unfold Nat.toDigits
  rw [toDigitsCore_eq_natDigs (n + 1) n []
    (lt_of_lt_of_le (Nat.lt_pow_self (by norm_num) n)
      (Nat.pow_le_pow_right (by norm_num) (Nat.le_succ n))) (Nat.succ_pos n)]
  simp [List.asString]

theorem digitChar_isDigit (m : Nat) (h : m < 10) : (Nat.digitChar m).isDigit = true := by
  interval_cases m <;> decide

theorem natDigs_isDigit (n : Nat) : ∀ c ∈ natDigs n, c.isDigit = true := by
  induction n using Nat.strong_induction_on with
  | _ n ih =>
    by_cases h : n < 10
    · rw [natDigs_of_lt n h]
      intro c hc
      rw [List.mem_singleton.mp hc]
      exact digitChar_isDigit n h
    · rw [natDigs_of_ge n h]
      intro c hc
      rcases List.mem_append.mp hc with hc | hc
      · exact ih (n / 10) (Nat.div_lt_self (by omega) (by omega)) c hc
      · rw [List.mem_singleton.mp hc]
        exact digitChar_isDigit (n % 10) (Nat.mod_lt n (by omega))

theorem repr_isDigit (n : Nat) : ∀ c ∈ (Nat.repr n).data, c.isDigit = true := by
  rw [repr_eq_natDigs]
  exact natDigs_isDigit n

theorem digitChar_inj_lt :
    ∀ m, m < 10 → ∀ n, n < 10 → Nat.digitChar m = Nat.digitChar n → m = n := by
  decide

theorem natDigs_inj (m : Nat) :
    ∀ n : Nat, natDigs m = natDigs n → m = n := by
  induction m using Nat.strong_induction_on with
  | _ m ih =>
    intro n h
    by_cases hm : m < 10 <;> by_cases hn : n < 10
    · rw [natDigs_of_lt m hm, natDigs_of_lt n hn] at h
      exact digitChar_inj_lt m hm n hn (List.singleton_inj.mp h)
    · rw [natDigs_of_lt m hm, natDigs_of_ge n hn] at h
      have := congrArg List.length h
      simp at this
      exact absurd this (natDigs_ne_nil (n / 10))
    · rw [natDigs_of_ge m hm, natDigs_of_lt n hn] at h
      have := congrArg List.length h
      simp at this
      exact absurd this (natDigs_ne_nil (m / 10))
    · rw [natDigs_of_ge m hm, natDigs_of_ge n hn] at h
      have hparts := List.append_inj' h (by simp)
      have hdiv : m / 10 = n / 10 :=
        ih (m / 10) (Nat.div_lt_self (by omega) (by omega)) (n / 10) hparts.1
      have hmod : m % 10 = n % 10 :=
        digitChar_inj_lt (m % 10) (Nat.mod_lt m (by omega)) (n % 10)
          (Nat.mod_lt n (by omega)) (List.singleton_inj.mp hparts.2)
      omega

theorem repr_inj (m n : Nat) (h : Nat.repr m = Nat.repr n) : m = n := by
  have := congrArg String.data h
  rw [repr_eq_natDigs, repr_eq_natDigs] at this
  exact natDigs_inj m n this

/-- Splitting lemma for "digits, then a non-digit separator block": if two
concatenations of a digit string and a tail that is empty or starts with a
fixed non-digit separator agree, both parts agree. -/
theorem digits_sep_append_inj (sep : Char) (hsep : sep.isDigit = false) :
    ∀ d1 d2 e1 e2 : List Char, (∀ c ∈ d1, c.isDigit = true) →
      (∀ c ∈ d2, c.isDigit = true) →
      (e1 = [] ∨ ∃ s, e1 = sep :: s) → (e2 = [] ∨ ∃ s, e2 = sep :: s) →
      d1 ++ e1 = d2 ++ e2 → d1 = d2 ∧ e1 = e2 := by
  intro d1
  induction d1 with
  | nil =>
    intro d2 e1 e2 _ hd2 he1 he2 h
    cases d2 with
    | nil => exact ⟨rfl, h⟩
    | cons c2 t2 =>
      exfalso
      rcases he1 with h1 | ⟨s, h1⟩
      · subst h1
        simp at h
      · subst h1
        simp at h
        have : c2.isDigit = true := hd2 c2 (by simp)
        rw [← h.1] at this
        rw [hsep] at this
        cases this
  | cons c1 t1 ihd =>
    intro d2 e1 e2 hd1 hd2 he1 he2 h
    cases d2 with
    | nil =>
      exfalso
      rcases he2 with h2 | ⟨s, h2⟩
      · subst h2
        simp at h
      · subst h2
        simp at h
        have : c1.isDigit = true := hd1 c1 (by simp)
        rw [h.1, hsep] at this
        cases this
    | cons c2 t2 =>
      simp only [List.cons_append, List.cons.injEq] at h
      have ht := ihd t2 e1 e2 (fun c hc => hd1 c (List.mem_cons_of_mem c1 hc))
        (fun c hc => hd2 c (List.mem_cons_of_mem c2 hc)) he1 he2 h.2
      exact ⟨by rw [h.1, ht.1], ht.2⟩

/-! ## Ancestor chains: uniqueness, acyclicity, length bound -/

theorem id_inj (tasks : List Task) (hids : (tasks.map Task.id).Nodup)
    (a b : Task) (ha : a ∈ tasks) (hb : b ∈ tasks) (h : a.id = b.id) : a = b :=
  List.inj_on_of_nodup_map hids ha hb h

theorem pathOK_mem_ids (tasks : List Task) :
    ∀ (path : List Nat) (t : Task), PathOK tasks path t →
      ∀ p ∈ path, p ∈ tasks.map Task.id := by
  intro path
  induction path with
  | nil => intro t _ p hp; cases hp
  | cons q rest ih =>
    intro t hpath p hp
    rcases hpath with ⟨_, pt, hmem, hid, hrest⟩
    rcases List.mem_cons.mp hp with h | h
    · subst h
      exact List.mem_map.mpr ⟨pt, hmem, hid⟩
    · exact ih pt hrest p h

theorem pathOK_unique (tasks : List Task) (hids : (tasks.map Task.id).Nodup) :
    ∀ (path1 path2 : List Nat) (t : Task),
      PathOK tasks path1 t → PathOK tasks path2 t → path1 = path2 := by
  intro path1
  induction path1 with
  | nil =>
    intro path2 t h1 h2
    cases path2 with
    | nil => rfl
    | cons q rest =>
      rw [show PathOK tasks [] t = (t.parentTaskId = none) from rfl] at h1
      rcases h2 with ⟨hq, _⟩
      rw [h1] at hq
      cases hq
  | cons q rest ih =>
    intro path2 t h1 h2
    cases path2 with
    | nil =>
      rw [show PathOK tasks [] t = (t.parentTaskId = none) from rfl] at h2
      rcases h1 with ⟨hq, _⟩
      rw [h2] at hq
      cases hq
    | cons q2 rest2 =>
      rcases h1 with ⟨hq1, pt1, hm1, hi1, hr1⟩
      rcases h2 with ⟨hq2, pt2, hm2, hi2, hr2⟩
      rw [hq1] at hq2
      have hqq : q = q2 := Option.some_inj.mp hq2
      subst hqq
      have : pt1 = pt2 := id_inj tasks hids pt1 pt2 hm1 hm2 (hi1.trans hi2.symm)
      subst this
      rw [ih rest2 pt1 hr1 hr2]

theorem pathOK_decompose (tasks : List Task) (hids : (tasks.map Task.id).Nodup) :
    ∀ (u : List Nat) (p : Nat) (v : List Nat) (t : Task),
      PathOK tasks (u ++ p :: v) t →
      ∀ a ∈ tasks, a.id = p → PathOK tasks v a := by
  intro u
  induction u with
  | nil =>
    intro p v t h a ha hap
    rcases h with ⟨_, pt, hm, hi, hr⟩
    have : a = pt := id_inj tasks hids a pt ha hm (hap.trans hi.symm)
    subst this
    exact hr
  | cons q u' ih =>
    intro p v t h a ha hap
    rcases h with ⟨_, pt, hm, hi, hr⟩
    exact ih p v pt hr a ha hap

theorem pathOK_not_mem (tasks : List Task) (hids : (tasks.map Task.id).Nodup)
    (path : List Nat) (t : Task) (ht : t ∈ tasks) (h : PathOK tasks path t) :
    t.id ∉ path := by
  intro hmem
  rcases List.append_of_mem hmem with ⟨u, v, huv⟩
  rw [huv] at h
  have hv : PathOK tasks v t := pathOK_decompose tasks hids u t.id v t h t ht rfl
  have := pathOK_unique tasks hids (u ++ t.id :: v) v t h hv
  have hlen := congrArg List.length this
  simp at hlen
  omega

theorem pathOK_nodup (tasks : List Task) (hids : (tasks.map Task.id).Nodup) :
    ∀ (path : List Nat) (t : Task), PathOK tasks path t → path.Nodup := by
  intro path
  induction path with
  | nil => intro t _; exact List.nodup_nil
  | cons q rest ih =>
    intro t h
    rcases h with ⟨_, pt, hm, hi, hr⟩
    refine List.nodup_cons.mpr ⟨?_, ih pt hr⟩
    rw [← hi]
    exact pathOK_not_mem tasks hids rest pt hm hr

theorem pathOK_length (tasks : List Task) (hids : (tasks.map Task.id).Nodup)
    (path : List Nat) (t : Task) (ht : t ∈ tasks) (h : PathOK tasks path t) :
    path.length < tasks.length := by
  have hnd : (t.id :: path).Nodup :=
    List.nodup_cons.mpr ⟨pathOK_not_mem tasks hids path t ht h,
      pathOK_nodup tasks hids path t h⟩
  have hsub : (t.id :: path) ⊆ tasks.map Task.id := by
    intro p hp
    rcases List.mem_cons.mp hp with hp | hp
    · subst hp
      exact List.mem_map.mpr ⟨t, ht, rfl⟩
    · exact pathOK_mem_ids tasks path t h p hp
  have := (hnd.subperm hsub).length_le
  simp at this
  omega

/-! ## Fuel sufficiency: `visit` succeeds with fuel `tasks.length` -/

theorem mem_sortTasks_bucket (tasks : List Task) (key : Option Nat) (c : Task)
    (hc : c ∈ sortTasks (byParentGet tasks key)) :
    c ∈ tasks ∧ c.parentTaskId = key := by
  simp only [sortTasks] at hc
  have h1 : c ∈ byParentGet tasks key := List.mem_mergeSort.mp hc
  have h2 := List.mem_filter.mp h1
  refine ⟨h2.1, ?_⟩
  have := h2.2
  simpa using this

theorem visit_isSome_aux (tasks : List Task) (hids : (tasks.map Task.id).Nodup) :
    ∀ fuel : Nat,
      (∀ (path : List Nat) (t : Task) (depth : Nat) (number : String),
        t ∈ tasks → PathOK tasks path t → tasks.length ≤ fuel + path.length →
        (visit tasks fuel t depth number).isSome = true) ∧
      (∀ (path : List Nat) (sibs : List Task) (depth : Nat) (pre : String) (pos : Nat),
        (∀ c ∈ sibs, c ∈ tasks ∧ PathOK tasks path c) →
        tasks.length ≤ fuel + path.length →
        (visitSibs tasks fuel sibs depth pre pos).isSome = true) := by
  intro fuel
  induction fuel with
  | zero =>
    constructor
    · intro path t depth number ht hp hlen
      have := pathOK_length tasks hids path t ht hp
      omega
    · intro path sibs depth pre pos hc hlen
      cases sibs with
      | nil => simp [visitSibs]
      | cons c rest =>
        have := pathOK_length tasks hids path c
          (hc c (List.mem_cons_self c rest)).1 (hc c (List.mem_cons_self c rest)).2
        omega
  | succ f ih =>
    have hv : ∀ (path : List Nat) (t : Task) (depth : Nat) (number : String),
        t ∈ tasks → PathOK tasks path t → tasks.length ≤ (f + 1) + path.length →
        (visit tasks (f + 1) t depth number).isSome = true := by
      intro path t depth number ht hp hlen
      have hc : ∀ c ∈ sortTasks (byParentGet tasks (some t.id)),
          c ∈ tasks ∧ PathOK tasks (t.id :: path) c := by
        intro c hcm
        have hb := mem_sortTasks_bucket tasks (some t.id) c hcm
        exact ⟨hb.1, hb.2, t, ht, rfl, hp⟩
      have hsibs := ih.2 (t.id :: path) (sortTasks (byParentGet tasks (some t.id)))
        (depth + 1) (number ++ ".") 1 hc (by simp; omega)
      rcases ho : visitSibs tasks f (sortTasks (byParentGet tasks (some t.id)))
          (depth + 1) (number ++ ".") 1 with _ | tail
      · rw [ho] at hsibs
        simp at hsibs
      · simp [visit, ho]
    refine ⟨hv, ?_⟩
    intro path sibs depth pre pos hc hlen
    induction sibs generalizing pos with
    | nil => simp [visitSibs]
    | cons c rest ihs =>
      have h1 := hv path c depth (pre ++ Nat.repr pos)
        (hc c (List.mem_cons_self c rest)).1 (hc c (List.mem_cons_self c rest)).2 hlen
      rcases hb : visit tasks (f + 1) c depth (pre ++ Nat.repr pos) with _ | block
      · rw [hb] at h1
        simp at h1
      · have h2 := ihs (pos + 1) (fun c hcm => hc c (List.mem_cons_of_mem _ hcm))
        rcases hm : visitSibs tasks (f + 1) rest depth pre (pos + 1) with _ | more
        · rw [hm] at h2
          simp at h2
        · simp [visitSibs, hb, hm]

theorem buildTaskRowsFuel_isSome (tasks : List Task)
    (hids : (tasks.map Task.id).Nodup) (fuel : Nat)
    (hf : tasks.length ≤ fuel) :
    (buildTaskRowsFuel tasks fuel).isSome = true := by
  have hc : ∀ c ∈ sortTasks (byParentGet tasks none),
      c ∈ tasks ∧ PathOK tasks [] c := by
    intro c hcm
    have hb := mem_sortTasks_bucket tasks none c hcm
    exact ⟨hb.1, hb.2⟩
  exact (visit_isSome_aux tasks hids fuel).2 [] _ 0 "" 1 hc (by simpa using hf)

/-! ## Row membership and uniqueness of visited tasks -/

theorem append_cons_eq_append_cons {α : Type} (a b : α) (p : List α) :
    ∀ q1 q2 : List α, q1 ++ a :: p = q2 ++ b :: p →
      a = b ∨ a ∈ p ∨ b ∈ p := by
  intro q1
  induction q1 with
  | nil =>
    intro q2 h
    cases q2 with
    | nil =>
      simp at h
      exact Or.inl h
    | cons x q2' =>
      simp at h
      rcases h with ⟨hax, hp⟩
      right; right
      rw [hp]
      exact List.mem_append_cons_self
  | cons x q1' ih =>
    intro q2 h
    cases q2 with
    | nil =>
      simp at h
      rcases h with ⟨hbx, hp⟩
      right; left
      rw [← hp]
      exact List.mem_append_cons_self
    | cons y q2' =>
      simp only [List.cons_append, List.cons.injEq] at h
      exact ih q2' h.2

theorem sortTasks_bucket_nodup (tasks : List Task)
    (hids : (tasks.map Task.id).Nodup) (key : Option Nat) :
    (sortTasks (byParentGet tasks key)).Nodup := by
  have h1 : tasks.Nodup := List.Nodup.of_map Task.id hids
  have h2 : (byParentGet tasks key).Nodup := h1.filter _
  simp only [sortTasks]
  exact ((List.mergeSort_perm (byParentGet tasks key) _).nodup_iff).mpr h2

theorem visit_mem_nodup_aux (tasks : List Task)
    (hids : (tasks.map Task.id).Nodup) :
    ∀ fuel : Nat,
      (∀ (path : List Nat) (t : Task) (depth : Nat) (number : String)
          (rows : List Row), t ∈ tasks → PathOK tasks path t →
        visit tasks fuel t depth number = some rows →
        (∀ r ∈ rows, r.task ∈ tasks ∧
          (r.task = t ∨ ∃ q, PathOK tasks (q ++ t.id :: path) r.task)) ∧
        (rows.map fun r => r.task.id).Nodup) ∧
      (∀ (path : List Nat) (sibs : List Task) (depth : Nat) (pre : String)
          (pos : Nat) (rows : List Row),
        (∀ c ∈ sibs, c ∈ tasks ∧ PathOK tasks path c) → sibs.Nodup →
        visitSibs tasks fuel sibs depth pre pos = some rows →
        (∀ r ∈ rows, r.task ∈ tasks ∧ ∃ c ∈ sibs,
          (r.task = c ∨ ∃ q, PathOK tasks (q ++ c.id :: path) r.task)) ∧
        (rows.map fun r => r.task.id).Nodup) := by
  intro fuel
  induction fuel with
  | zero =>
    constructor
    · intro path t depth number rows _ _ h
      simp [visit] at h
    · intro path sibs depth pre pos rows _ _ h
      cases sibs with
      | nil =>
        simp [visitSibs] at h
        subst h
        exact ⟨by simp, by simp⟩
      | cons c rest => simp [visitSibs, visit] at h
  | succ f ih =>
    have hV : ∀ (path : List Nat) (t : Task) (depth : Nat) (number : String)
        (rows : List Row), t ∈ tasks → PathOK tasks path t →
        visit tasks (f + 1) t depth number = some rows →
        (∀ r ∈ rows, r.task ∈ tasks ∧
          (r.task = t ∨ ∃ q, PathOK tasks (q ++ t.id :: path) r.task)) ∧
        (rows.map fun r => r.task.id).Nodup := by
      intro path t depth number rows ht hp h
      simp only [visit] at h
      split at h
      · cases h
      case _ tail heq =>
      cases h
      have hc : ∀ c ∈ sortTasks (byParentGet tasks (some t.id)),
          c ∈ tasks ∧ PathOK tasks (t.id :: path) c := by
        intro c hcm
        have hb := mem_sortTasks_bucket tasks (some t.id) c hcm
        exact ⟨hb.1, hb.2, t, ht, rfl, hp⟩
      have hnd := sortTasks_bucket_nodup tasks hids (some t.id)
      obtain ⟨smem, snodup⟩ := ih.2 (t.id :: path) _ (depth + 1) (number ++ ".") 1
        tail hc hnd heq
      constructor
      · intro r hr
        rcases List.mem_cons.mp hr with hr | hr
        · subst hr
          exact ⟨ht, Or.inl rfl⟩
        · obtain ⟨rmem, c, hcm, hco⟩ := smem r hr
          refine ⟨rmem, Or.inr ?_⟩
          rcases hco with hco | ⟨q, hq⟩
          · refine ⟨[], ?_⟩
            rw [hco]
            exact (hc c hcm).2
          · refine ⟨q ++ [c.id], ?_⟩
            rw [List.append_assoc]
            simpa using hq
      · rw [List.map_cons]
        refine List.nodup_cons.mpr ⟨?_, snodup⟩
        intro hmem
        rcases List.mem_map.mp hmem with ⟨r, hrtail, hrid⟩
        obtain ⟨rmem, c, hcm, hco⟩ := smem r hrtail
        have hrt : r.task = t := id_inj tasks hids r.task t rmem ht hrid
        rcases hco with hco | ⟨q, hq⟩
        · have htc : t = c := by rw [← hrt, hco]
          have hcp : c.parentTaskId = some t.id := (mem_sortTasks_bucket tasks _ c hcm).2
          rw [← htc] at hcp
          cases hpath : path with
          | nil =>
            rw [hpath] at hp
            rw [show PathOK tasks [] t = (t.parentTaskId = none) from rfl] at hp
            rw [hp] at hcp
            cases hcp
          | cons p0 rest =>
            rw [hpath] at hp
            have hp0 : p0 = t.id := by
              have := hp.1
              rw [this] at hcp
              exact Option.some_inj.mp hcp
            have hnotmem := pathOK_not_mem tasks hids path t ht (hpath ▸ hp)
            rw [hpath, hp0] at hnotmem
            exact hnotmem (List.mem_cons_self _ _)
        · rw [hrt] at hq
          have := pathOK_unique tasks hids path (q ++ c.id :: t.id :: path) t hp hq
          have hlen := congrArg List.length this
          simp at hlen
          omega
    refine ⟨hV, ?_⟩
    intro path sibs
    induction sibs with
    | nil =>
      intro depth pre pos rows _ _ h
      simp [visitSibs] at h
      subst h
      exact ⟨by simp, by simp⟩
    | cons c rest ihs =>
      intro depth pre pos rows hc hnd h
      simp only [visitSibs] at h
      split at h
      · cases h
      case _ block heqb =>
      split at h
      · cases h
      case _ more heqm =>
      cases h
      have hcmem := hc c (List.mem_cons_self c rest)
      obtain ⟨bmem, bnodup⟩ := hV path c depth (pre ++ Nat.repr pos) block
        hcmem.1 hcmem.2 heqb
      obtain ⟨mmem, mnodup⟩ := ihs depth pre (pos + 1) more
        (fun x hx => hc x (List.mem_cons_of_mem _ hx))
        (List.nodup_cons.mp hnd).2 heqm
      constructor
      · intro r hr
        rcases List.mem_append.mp hr with hr | hr
        · obtain ⟨rmem, hco⟩ := bmem r hr
          exact ⟨rmem, c, List.mem_cons_self c rest, hco⟩
        · obtain ⟨rmem, c', hcm', hco'⟩ := mmem r hr
          exact ⟨rmem, c', List.mem_cons_of_mem _ hcm', hco'⟩
      · rw [List.map_append]
        refine List.nodup_append.mpr ⟨bnodup, mnodup, ?_⟩
        intro i hib him
        rcases List.mem_map.mp hib with ⟨r1, hr1, hi1⟩
        rcases List.mem_map.mp him with ⟨r2, hr2, hi2⟩
        obtain ⟨r1mem, hco1⟩ := bmem r1 hr1
        obtain ⟨r2mem, c', hcm', hco2⟩ := mmem r2 hr2
        have hz : r1.task = r2.task :=
          id_inj tasks hids r1.task r2.task r1mem r2mem (by rw [hi1, hi2])
        have hcrest : c' ∈ rest := hcm'
        have hcc : c ∈ tasks ∧ PathOK tasks path c := hc c (List.mem_cons_self c rest)
        have hcc' : c' ∈ tasks ∧ PathOK tasks path c' :=
          hc c' (List.mem_cons_of_mem _ hcrest)
        rcases hco1 with hco1 | ⟨q1, hq1⟩ <;> rcases hco2 with hco2 | ⟨q2, hq2⟩
        · -- r1.task = c and r2.task = c' : equal tasks force c = c' ∈ rest
          have : c = c' := by rw [← hco1, hz, hco2]
          rw [this] at hnd
          exact (List.nodup_cons.mp hnd).1 hcrest
        · -- r1.task = c, r2.task deeper under c'
          rw [← hz, hco1] at hq2
          have := pathOK_unique tasks hids path (q2 ++ c'.id :: path) c
            hcc.2 hq2
          have hlen := congrArg List.length this
          simp at hlen
          omega
        · -- r1.task deeper under c, r2.task = c'
          rw [hz, hco2] at hq1
          have := pathOK_unique tasks hids path (q1 ++ c.id :: path) c'
            hcc'.2 hq1
          have hlen := congrArg List.length this
          simp at hlen
          omega
        · -- both deeper
          rw [hz] at hq1
          have := pathOK_unique tasks hids (q1 ++ c.id :: path)
            (q2 ++ c'.id :: path) r2.task hq1 hq2
          rcases append_cons_eq_append_cons c.id c'.id path q1 q2 this with
            hcc12 | hcp | hcp
          · have : c = c' := id_inj tasks hids c c' hcc.1 hcc'.1 hcc12
            rw [this] at hnd
            exact (List.nodup_cons.mp hnd).1 hcrest
          · exact pathOK_not_mem tasks hids path c hcc.1 hcc.2 hcp
          · exact pathOK_not_mem tasks hids path c' hcc'.1 hcc'.2 hcp

/-! ## Block structure: depths, pre-order linkage, hierarchical numbers -/

theorem linkedRow_extend (tasks : List Task) (X Y rows : List Row) (r : Row)
    (p : Nat) (h : LinkedRow tasks rows r p) :
    LinkedRow tasks (X ++ rows ++ Y) r p := by
  obtain ⟨A, B, C, pr, hdec, hid, hdep, hmem, hdeeper, i, hi, hget, hnum⟩ := h
  refine ⟨X ++ A, B, C ++ Y, pr, ?_, hid, hdep, hmem, hdeeper, i, hi, hget, hnum⟩
  rw [hdec]
  simp

theorem visit_inv_aux (tasks : List Task) :
    ∀ fuel : Nat,
      (∀ (t : Task) (depth : Nat) (number : String) (rows : List Row),
        visit tasks fuel t depth number = some rows →
        ∃ tail, rows = ⟨t, depth, number⟩ :: tail ∧
          (∀ x ∈ tail, depth < x.depth) ∧
          (∀ r ∈ tail, ∃ p, r.task.parentTaskId = some p) ∧
          (∀ r ∈ tail, ∃ s, r.number.data = number.data ++ '.' :: s) ∧
          ((rows.map Row.number).Nodup) ∧
          (∀ r ∈ rows, ∀ p, r.task.parentTaskId = some p →
            r = ⟨t, depth, number⟩ ∨ LinkedRow tasks rows r p)) ∧
      (∀ (sibs : List Task) (depth : Nat) (pre : String) (pos : Nat)
          (rows : List Row),
        visitSibs tasks fuel sibs depth pre pos = some rows →
        SibsBlockInv tasks sibs depth pre pos rows) := by
  intro fuel
  induction fuel with
  | zero =>
    constructor
    · intro t depth number rows h
      simp [visit] at h
    · intro sibs depth pre pos rows h
      cases sibs with
      | nil =>
        simp [visitSibs] at h
        subst h
        exact ⟨by simp, by simp, by simp, by simp, by simp, by simp⟩
      | cons c rest => simp [visitSibs, visit] at h
  | succ f ih =>
    have hV : ∀ (t : Task) (depth : Nat) (number : String) (rows : List Row),
        visit tasks (f + 1) t depth number = some rows →
        ∃ tail, rows = ⟨t, depth, number⟩ :: tail ∧
          (∀ x ∈ tail, depth < x.depth) ∧
          (∀ r ∈ tail, ∃ p, r.task.parentTaskId = some p) ∧
          (∀ r ∈ tail, ∃ s, r.number.data = number.data ++ '.' :: s) ∧
          ((rows.map Row.number).Nodup) ∧
          (∀ r ∈ rows, ∀ p, r.task.parentTaskId = some p →
            r = ⟨t, depth, number⟩ ∨ LinkedRow tasks rows r p) := by
      intro t depth number rows h
      simp only [visit] at h
      split at h
      · cases h
      case _ tail heq =>
      cases h
      obtain ⟨s1, s2, s3, s4, s5, s6⟩ := ih.2
        (sortTasks (byParentGet tasks (some t.id))) (depth + 1)
        (number ++ ".") 1 tail heq
      have hdeep : ∀ x ∈ tail, depth < x.depth := by
        intro x hx
        have := s1 x hx
        omega
      have hext : ∀ r ∈ tail, ∃ s, r.number.data = number.data ++ '.' :: s := by
        intro r hr
        obtain ⟨k, hk, hshape | ⟨s, hshape⟩⟩ := s3 r hr
        · refine ⟨(Nat.repr k).data, ?_⟩
          rw [hshape, String.data_append]
          simp
        · refine ⟨(Nat.repr k).data ++ '.' :: s, ?_⟩
          rw [hshape, String.data_append]
          simp
      refine ⟨tail, rfl, hdeep, ?_, hext, ?_, ?_⟩
      · intro r hr
        by_cases hd : r.depth = depth + 1
        · obtain ⟨i, hi, hget, _⟩ := s5 r hr hd
          have hmem : r.task ∈ sortTasks (byParentGet tasks (some t.id)) := by
            rw [← hget]
            exact List.get_mem _ _ _
          exact ⟨t.id, (mem_sortTasks_bucket tasks _ _ hmem).2⟩
        · exact s2 r hr hd
      · rw [List.map_cons]
        refine List.nodup_cons.mpr ⟨?_, s4⟩
        intro hmem
        rcases List.mem_map.mp hmem with ⟨r, hr, hrnum⟩
        obtain ⟨s, hs⟩ := hext r hr
        rw [hrnum] at hs
        have := congrArg List.length hs
        simp at this
      · intro r hr p hp
        rcases List.mem_cons.mp hr with hr | hr
        · exact Or.inl hr
        · right
          rcases s6 r hr p hp with hd | hlink
          · obtain ⟨i, hi, hget, hnum⟩ := s5 r hr hd
            have hmem : r.task ∈ sortTasks (byParentGet tasks (some t.id)) := by
              rw [← hget]
              exact List.get_mem _ _ _
            have hpar : r.task.parentTaskId = some t.id :=
              (mem_sortTasks_bucket tasks _ _ hmem).2
            have hpt : p = t.id := by
              rw [hp] at hpar
              exact Option.some_inj.mp hpar
            subst hpt
            refine ⟨[], tail, [], ⟨t, depth, number⟩, by simp, rfl, hd, hr,
              hdeep, i, hi, hget, ?_⟩
            rw [Nat.add_comm 1 i] at hnum
            apply String.ext
            rw [hnum]
            simp [String.data_append]
          · have := linkedRow_extend tasks [⟨t, depth, number⟩] [] tail r p hlink
            simpa using this
    refine ⟨hV, ?_⟩
    intro sibs
    induction sibs with
    | nil =>
      intro depth pre pos rows h
      simp [visitSibs] at h
      subst h
      exact ⟨by simp, by simp, by simp, by simp, by simp, by simp⟩
    | cons c rest ihs =>
      intro depth pre pos rows h
      simp only [visitSibs] at h
      split at h
      · cases h
      case _ block heqb =>
      split at h
      · cases h
      case _ more heqm =>
      cases h
      obtain ⟨btail, hbeq, b1, b2, b3, b4, b5⟩ :=
        hV c depth (pre ++ Nat.repr pos) block heqb
      obtain ⟨m1, m2, m3, m4, m5, m6⟩ := ihs depth pre (pos + 1) more heqm
      subst hbeq
      have hblock3 : ∀ r ∈ (⟨c, depth, pre ++ Nat.repr pos⟩ : Row) :: btail,
          r.number.data = pre.data ++ (Nat.repr pos).data ∨
            ∃ s, r.number.data = pre.data ++ (Nat.repr pos).data ++ '.' :: s := by
        intro r hr
        rcases List.mem_cons.mp hr with hr | hr
        · left
          rw [hr]
          exact String.data_append pre (Nat.repr pos)
        · right
          obtain ⟨s, hs⟩ := b3 r hr
          refine ⟨s, ?_⟩
          rw [hs, String.data_append]
      refine ⟨?_, ?_, ?_, ?_, ?_, ?_⟩
      · intro x hx
        rcases List.mem_append.mp hx with hx | hx
        · rcases List.mem_cons.mp hx with hx | hx
          · rw [hx]
          · exact le_of_lt (b1 x hx)
        · exact m1 x hx
      · intro r hr hdne
        rcases List.mem_append.mp hr with hr | hr
        · rcases List.mem_cons.mp hr with hr | hr
          · exact absurd (by rw [hr]) hdne
          · exact b2 r hr
        · exact m2 r hr hdne
      · intro r hr
        rcases List.mem_append.mp hr with hr | hr
        · rcases hblock3 r hr with hsh | ⟨s, hsh⟩
          · exact ⟨pos, le_rfl, Or.inl hsh⟩
          · exact ⟨pos, le_rfl, Or.inr ⟨s, hsh⟩⟩
        · obtain ⟨k, hk, hsh⟩ := m3 r hr
          exact ⟨k, by omega, hsh⟩
      · rw [List.map_append]
        refine List.nodup_append.mpr ⟨b4, m4, ?_⟩
        intro n hnb hnm
        rcases List.mem_map.mp hnb with ⟨r1, hr1, hn1⟩
        rcases List.mem_map.mp hnm with ⟨r2, hr2, hn2⟩
        obtain ⟨k, hk, hsh2⟩ := m3 r2 hr2
        have heqnum : r1.number.data = r2.number.data := by
          rw [hn1, hn2]
        obtain ⟨e1, he1, hd1⟩ : ∃ e1, (e1 = [] ∨ ∃ s, e1 = '.' :: s) ∧
            r1.number.data = pre.data ++ ((Nat.repr pos).data ++ e1) := by
          rcases hblock3 r1 hr1 with h1 | ⟨s, h1⟩
          · exact ⟨[], Or.inl rfl, by rw [h1]; simp⟩
          · exact ⟨'.' :: s, Or.inr ⟨s, rfl⟩, by rw [h1]; simp⟩
        obtain ⟨e2, he2, hd2⟩ : ∃ e2, (e2 = [] ∨ ∃ s, e2 = '.' :: s) ∧
            r2.number.data = pre.data ++ ((Nat.repr k).data ++ e2) := by
          rcases hsh2 with h2 | ⟨s, h2⟩
          · exact ⟨[], Or.inl rfl, by rw [h2]; simp⟩
          · exact ⟨'.' :: s, Or.inr ⟨s, rfl⟩, by rw [h2]; simp⟩
        rw [hd1, hd2] at heqnum
        have hcat := List.append_cancel_left heqnum
        have hsplit := digits_sep_append_inj '.' (by decide)
          (Nat.repr pos).data (Nat.repr k).data e1 e2
          (repr_isDigit pos) (repr_isDigit k) he1 he2 hcat
        have : pos = k := repr_inj pos k (String.ext hsplit.1)
        omega
      · intro r hr hd
        rcases List.mem_append.mp hr with hr | hr
        · rcases List.mem_cons.mp hr with hr | hr
          · refine ⟨0, by simp, ?_, ?_⟩
            · simp [hr]
            · rw [hr, Nat.add_zero]
              exact String.data_append pre (Nat.repr pos)
          · exact absurd hd (by have := b1 r hr; omega)
        · obtain ⟨i, hi, hget, hnum⟩ := m5 r hr hd
          refine ⟨i + 1, by simpa using Nat.succ_lt_succ hi, ?_, ?_⟩
          · simpa using hget
          · rw [show pos + (i + 1) = pos + 1 + i from by omega]
            exact hnum
      · intro r hr p hp
        rcases List.mem_append.mp hr with hr | hr
        · rcases b5 r hr p hp with hh | hlink
          · left
            rw [hh]
          · right
            have := linkedRow_extend tasks [] more _ r p hlink
            simpa using this
        · rcases m6 r hr p hp with hh | hlink
          · exact Or.inl hh
          · right
            have := linkedRow_extend tasks
              ((⟨c, depth, pre ++ Nat.repr pos⟩ : Row) :: btail) [] more r p hlink
            simpa using this

theorem buildTaskRows_inv (tasks : List Task) (rows : List Row)
    (hrows : buildTaskRows tasks = some rows) :
    SibsBlockInv tasks (sortTasks (byParentGet tasks none)) 0 "" 1 rows := by
  simp only [buildTaskRows, buildTaskRowsFuel] at hrows
  exact (visit_inv_aux tasks tasks.length).2 _ 0 "" 1 rows hrows

/-! ## C7: depths and pre-order placement -/

/-- C7: in the produced row list, a task with no parent reference has depth
0, and a task whose parent reference resolves to an emitted row appears
with depth equal to the parent row's depth plus one, strictly after the
parent row, inside the parent's contiguous block of strictly deeper rows
(hence before any row of a different branch). -/
theorem buildTaskRows_depth_preorder (tasks : List Task) (rows : List Row)
    (hrows : buildTaskRows tasks = some rows) :
    (∀ r ∈ rows, r.task.parentTaskId = none → r.depth = 0) ∧
    (∀ r ∈ rows, ∀ p, r.task.parentTaskId = some p →
      ∃ A B C pr, rows = A ++ pr :: (B ++ C) ∧ pr.task.id = p ∧
        r.depth = pr.depth + 1 ∧ r ∈ B ∧ ∀ x ∈ B, pr.depth < x.depth) := by
  obtain ⟨s1, s2, s3, s4, s5, s6⟩ := buildTaskRows_inv tasks rows hrows
  constructor
  · intro r hr hnone
    by_contra hne
    obtain ⟨p, hp⟩ := s2 r hr hne
    rw [hnone] at hp
    cases hp
  · intro r hr p hp
    rcases s6 r hr p hp with hd | hlink
    · obtain ⟨i, hi, hget, _⟩ := s5 r hr hd
      have hmem : r.task ∈ sortTasks (byParentGet tasks none) := by
        rw [← hget]
        exact List.get_mem _ _ _
      have := (mem_sortTasks_bucket tasks none _ hmem).2
      rw [hp] at this
      cases this
    · obtain ⟨A, B, C, pr, hdec, hid, hdep, hmem, hdeeper, _⟩ := hlink
      exact ⟨A, B, C, pr, hdec, hid, hdep, hmem, hdeeper⟩

unseal List.merge List.mergeSort visit visitSibs in
/-- Witness for C7 at a concrete input (a root with one child). -/
theorem buildTaskRows_depth_preorder_witness :
    ∃ A B C pr,
      ([⟨⟨1, 1, "A", "planned", none, [], some 0, some 100⟩, 0, "1"⟩,
        ⟨⟨2, 1, "B", "planned", some 1, [], some 10, some 50⟩, 1, "1.1"⟩] :
          List Row) = A ++ pr :: (B ++ C) ∧
      pr.task.id = 1 ∧
      (⟨⟨2, 1, "B", "planned", some 1, [], some 10, some 50⟩, 1, "1.1"⟩ :
        Row).depth = pr.depth + 1 ∧
      (⟨⟨2, 1, "B", "planned", some 1, [], some 10, some 50⟩, 1, "1.1"⟩ :
        Row) ∈ B ∧
      ∀ x ∈ B, pr.depth < x.depth :=
  (buildTaskRows_depth_preorder
    [⟨1, 1, "A", "planned", none, [], some 0, some 100⟩,
     ⟨2, 1, "B", "planned", some 1, [], some 10, some 50⟩] _ (by decide)).2
    ⟨⟨2, 1, "B", "planned", some 1, [], some 10, some 50⟩, 1, "1.1"⟩
    (by decide) 1 rfl

/-! ## C8: hierarchical numbering -/

/-- C8: hierarchical number strings are unique across the row list; a root
row's number is the decimal rendering of its 1-based position among the
sorted roots; a child row's number is its parent row's number followed by
`"."` and its 1-based position among the parent's sorted children. -/
theorem buildTaskRows_numbering (tasks : List Task) (rows : List Row)
    (hrows : buildTaskRows tasks = some rows) :
    ((rows.map Row.number).Nodup) ∧
    (∀ r ∈ rows, r.task.parentTaskId = none →
      ∃ i : Nat, ∃ hi : i < (sortTasks (byParentGet tasks none)).length,
        (sortTasks (byParentGet tasks none)).get ⟨i, hi⟩ = r.task ∧
        r.number = Nat.repr (i + 1)) ∧
    (∀ r ∈ rows, ∀ p, r.task.parentTaskId = some p →
      ∃ pr ∈ rows, pr.task.id = p ∧
        ∃ i : Nat, ∃ hi : i < (sortTasks (byParentGet tasks (some p))).length,
          (sortTasks (byParentGet tasks (some p))).get ⟨i, hi⟩ = r.task ∧
          r.number = pr.number ++ "." ++ Nat.repr (i + 1)) := by
  obtain ⟨s1, s2, s3, s4, s5, s6⟩ := buildTaskRows_inv tasks rows hrows
  have hdepth0 : ∀ r ∈ rows, r.task.parentTaskId = none → r.depth = 0 := by
    intro r hr hnone
    by_contra hne
    obtain ⟨p, hp⟩ := s2 r hr hne
    rw [hnone] at hp
    cases hp
  refine ⟨s4, ?_, ?_⟩
  · intro r hr hnone
    obtain ⟨i, hi, hget, hnum⟩ := s5 r hr (hdepth0 r hr hnone)
    refine ⟨i, hi, hget, ?_⟩
    apply String.ext
    rw [hnum, Nat.add_comm 1 i]
    simp [show ("" : String).data = [] from rfl]
  · intro r hr p hp
    rcases s6 r hr p hp with hd | hlink
    · obtain ⟨i, hi, hget, _⟩ := s5 r hr hd
      have hmem : r.task ∈ sortTasks (byParentGet tasks none) := by
        rw [← hget]
        exact List.get_mem _ _ _
      have := (mem_sortTasks_bucket tasks none _ hmem).2
      rw [hp] at this
      cases this
    · obtain ⟨A, B, C, pr, hdec, hid, hdep, hmem, hdeeper, i, hi, hget, hnum⟩ :=
        hlink
      refine ⟨pr, ?_, hid, i, hi, hget, hnum⟩
      rw [hdec]
      exact List.mem_append_cons_self

unseal List.merge List.mergeSort visit visitSibs in
/-- Witness for C8 at a concrete input. -/
theorem buildTaskRows_numbering_witness :
    (([⟨⟨1, 1, "A", "planned", none, [], some 0, some 100⟩, 0, "1"⟩,
       ⟨⟨2, 1, "B", "planned", some 1, [], some 10, some 50⟩, 1, "1.1"⟩] :
        List Row).map Row.number).Nodup :=
  (buildTaskRows_numbering
    [⟨1, 1, "A", "planned", none, [], some 0, some 100⟩,
     ⟨2, 1, "B", "planned", some 1, [], some 10, some 50⟩] _ (by decide)).1

/-! ## C5: dangling parent references -/

/-- C5: a task whose parent reference carries an identifier that no task
reachable from a root (i.e. no emitted row) has is excluded from the output
entirely: it is not promoted to root and no row is emitted for it. -/
theorem dangling_parent_excluded (tasks : List Task) (rows : List Row)
    (hrows : buildTaskRows tasks = some rows) (x : Task) (p : Nat)
    (hpar : x.parentTaskId = some p)
    (hdangling : ∀ r ∈ rows, r.task.id ≠ p) :
    ∀ r ∈ rows, r.task ≠ x := by
  obtain ⟨s1, s2, s3, s4, s5, s6⟩ := buildTaskRows_inv tasks rows hrows
  intro r hr heq
  have hp : r.task.parentTaskId = some p := by
    rw [heq]
    exact hpar
  rcases s6 r hr p hp with hd | hlink
  · obtain ⟨i, hi, hget, _⟩ := s5 r hr hd
    have hmem : r.task ∈ sortTasks (byParentGet tasks none) := by
      rw [← hget]
      exact List.get_mem _ _ _
    have := (mem_sortTasks_bucket tasks none _ hmem).2
    rw [hp] at this
    cases this
  · obtain ⟨A, B, C, pr, hdec, hid, _⟩ := hlink
    refine hdangling pr ?_ hid
    rw [hdec]
    exact List.mem_append_cons_self

unseal List.merge List.mergeSort visit visitSibs in
/-- Witness for C5: a task with parent id 99 where no task with id 99
exists does not appear in the row list (Scenario C). -/
theorem dangling_parent_excluded_witness :
    (⟨⟨1, 1, "A", "planned", none, [], some 0, some 100⟩, 0, "1"⟩ : Row).task ≠
      ⟨2, 1, "X", "planned", some 99, [], some 10, some 50⟩ :=
  dangling_parent_excluded
    [⟨1, 1, "A", "planned", none, [], some 0, some 100⟩,
     ⟨2, 1, "X", "planned", some 99, [], some 10, some 50⟩]
    [⟨⟨1, 1, "A", "planned", none, [], some 0, some 100⟩, 0, "1"⟩] (by decide)
    ⟨2, 1, "X", "planned", some 99, [], some 10, some 50⟩ 99 rfl (by decide)
    ⟨⟨1, 1, "A", "planned", none, [], some 0, some 100⟩, 0, "1"⟩ (by decide)

/-! ## C6: termination and single visits -/

/-- C6: for every finite task collection with unique identifiers the
traversal terminates — fuel `tasks.length` (or more) always yields a
result — even when parent references form a cycle or a task is its own
parent (such tasks are unreachable from the roots bucket and silently
excluded), and each task is visited at most once (row task identifiers are
pairwise distinct). -/
theorem buildTaskRows_terminates (tasks : List Task)
    (hids : (tasks.map Task.id).Nodup) :
    (∀ fuel, tasks.length ≤ fuel →
      (buildTaskRowsFuel tasks fuel).isSome = true) ∧
    (buildTaskRows tasks).isSome = true ∧
    (∀ rows, buildTaskRows tasks = some rows →
      (rows.map fun r => r.task.id).Nodup) := by
  refine ⟨fun fuel hf => buildTaskRowsFuel_isSome tasks hids fuel hf,
    buildTaskRowsFuel_isSome tasks hids tasks.length le_rfl, ?_⟩
  intro rows hrows
  simp only [buildTaskRows, buildTaskRowsFuel] at hrows
  have hc : ∀ c ∈ sortTasks (byParentGet tasks none),
      c ∈ tasks ∧ PathOK tasks [] c := by
    intro c hcm
    have hb := mem_sortTasks_bucket tasks none c hcm
    exact ⟨hb.1, hb.2⟩
  exact ((visit_mem_nodup_aux tasks hids tasks.length).2 [] _ 0 "" 1 rows hc
    (sortTasks_bucket_nodup tasks hids none) hrows).2

/-- Witness for C6 at a concrete input containing a two-task parent cycle
(ids 1 ↔ 2) next to an ordinary root (id 3). -/
theorem buildTaskRows_terminates_witness :
    (buildTaskRows
      [⟨1, 1, "A", "planned", some 2, [], none, none⟩,
       ⟨2, 1, "B", "planned", some 1, [], none, none⟩,
       ⟨3, 1, "C", "planned", none, [], none, none⟩]).isSome = true :=
  (buildTaskRows_terminates
    [⟨1, 1, "A", "planned", some 2, [], none, none⟩,
     ⟨2, 1, "B", "planned", some 1, [], none, none⟩,
     ⟨3, 1, "C", "planned", none, [], none, none⟩] (by decide)).2.1

/-! ## C2: dependency-line emission -/

theorem buildTaskRows_mem_nodup (tasks : List Task) (rows : List Row)
    (hids : (tasks.map Task.id).Nodup)
    (hrows : buildTaskRows tasks = some rows) :
    (∀ r ∈ rows, r.task ∈ tasks) ∧ (rows.map fun r => r.task.id).Nodup := by
  simp only [buildTaskRows, buildTaskRowsFuel] at hrows
  have hc : ∀ c ∈ sortTasks (byParentGet tasks none),
      c ∈ tasks ∧ PathOK tasks [] c := by
    intro c hcm
    have hb := mem_sortTasks_bucket tasks none c hcm
    exact ⟨hb.1, hb.2⟩
  have h := (visit_mem_nodup_aux tasks hids tasks.length).2 [] _ 0 "" 1 rows hc
    (sortTasks_bucket_nodup tasks hids none) hrows
  exact ⟨fun r hr => (h.1 r hr).1, h.2⟩

theorem taskIndexById_none_iff (rows : List Row) (i : Nat) :
    taskIndexById rows i = none ↔ ∀ r ∈ rows, r.task.id ≠ i := by
  unfold taskIndexById
  constructor
  · intro h r hr hid
    rcases hlast : (rows.enum.filter fun p => p.2.task.id == i).getLast? with _ | p
    · rw [List.getLast?_eq_none_iff, List.filter_eq_nil_iff] at hlast
      obtain ⟨n, hn⟩ := List.mem_iff_getElem?.mp hr
      have henum : (n, r) ∈ rows.enum := by
        rw [List.mem_enum_iff_getElem?]
        simpa using hn
      exact hlast (n, r) henum (by simpa using hid)
    · rw [hlast] at h
      cases h
  · intro h
    rcases hlast : (rows.enum.filter fun p => p.2.task.id == i).getLast? with _ | p
    · simp [hlast]
    · exfalso
      have hpmem := List.mem_of_getLast?_eq_some hlast
      have hpf := List.mem_filter.mp hpmem
      have hp2 : p.2 ∈ rows := by
        have := List.mem_enum_iff_getElem?.mp hpf.1
        exact List.getElem?_mem this
      exact h p.2 hp2 (by simpa using hpf.2)

theorem taskIndexById_some (rows : List Row) (i j : Nat)
    (h : taskIndexById rows i = some j) :
    ∃ row, rows[j]? = some row ∧ row.task.id = i := by
  unfold taskIndexById at h
  rcases hlast : (rows.enum.filter fun p => p.2.task.id == i).getLast? with _ | p
  · rw [hlast] at h
    cases h
  · rw [hlast] at h
    have hj : p.1 = j := by simpa using h
    have hpmem := List.mem_of_getLast?_eq_some hlast
    have hpf := List.mem_filter.mp hpmem
    have hget : rows[p.1]? = some p.2 := List.mem_enum_iff_getElem?.mp hpf.1
    refine ⟨p.2, ?_, by simpa using hpf.2⟩
    rw [← hj]
    simpa using hget

theorem depLineId_decode (d1 t1 d2 t2 : Nat)
    (h : Nat.repr d1 ++ "-" ++ Nat.repr t1 = Nat.repr d2 ++ "-" ++ Nat.repr t2) :
    d1 = d2 ∧ t1 = t2 := by
  have hdata := congrArg String.data h
  simp only [String.data_append] at hdata
  have hd1 : (Nat.repr d1).data ++ ('-' :: (Nat.repr t1).data) =
      (Nat.repr d2).data ++ ('-' :: (Nat.repr t2).data) := by
    simpa [show ("-" : String).data = ['-'] from rfl] using hdata
  have hsplit := digits_sep_append_inj '-' (by decide)
    (Nat.repr d1).data (Nat.repr d2).data
    ('-' :: (Nat.repr t1).data) ('-' :: (Nat.repr t2).data)
    (repr_isDigit d1) (repr_isDigit d2)
    (Or.inr ⟨(Nat.repr t1).data, rfl⟩) (Or.inr ⟨(Nat.repr t2).data, rfl⟩) hd1
  refine ⟨repr_inj d1 d2 (String.ext hsplit.1), repr_inj t1 t2 (String.ext ?_)⟩
  have := hsplit.2
  simpa using this

/-- C2 amended: when the rendering-surface width is nonzero, a
DependencyLine for the pair (dependency `d`, dependent `t`) is emitted iff
the dependent task is present in the row list with identifier `t`, has `d`
among its dependency ids and a resolvable interval, and some row carries
the dependency task with identifier `d` and a resolvable interval.  (With
width 0 the source returns no lines at all, see the counterexample.) -/
theorem dependencyLines_iff (tasks : List Task) (rows : List Row)
    (hids : (tasks.map Task.id).Nodup)
    (hrows : buildTaskRows tasks = some rows)
    (width : Rat) (hw : width ≠ 0) (d t : Nat) :
    (∃ l ∈ dependencyLines tasks rows width,
      l.id = Nat.repr d ++ "-" ++ Nat.repr t) ↔
    (∃ rt ∈ rows, rt.task.id = t ∧ d ∈ rt.task.dependsOn ∧
      (∃ iv, getTaskRange rt.task = some iv) ∧
      ∃ rd ∈ rows, rd.task.id = d ∧ ∃ ivd, getTaskRange rd.task = some ivd) := by
  obtain ⟨hmemT, hnodup⟩ := buildTaskRows_mem_nodup tasks rows hids hrows
  constructor
  · rintro ⟨l, hl, hlid⟩
    rcases htr : timelineRange tasks with _ | tr
    · simp [dependencyLines, htr] at hl
    · simp only [dependencyLines, htr, if_neg hw] at hl
      rcases List.mem_flatten.mp hl with ⟨inner, hinner, hlin⟩
      rcases List.mem_map.mp hinner with ⟨p, hp, hpeq⟩
      subst hpeq
      rcases hrange : getTaskRange p.2.task with _ | taskRange
      · simp only [hrange] at hlin
        cases hlin
      · simp only [hrange] at hlin
        rcases List.mem_filterMap.mp hlin with ⟨dId, hdmem, hg⟩
        rcases hti : taskIndexById rows dId with _ | depIdx
        · simp only [hti] at hg
          cases hg
        · simp only [hti] at hg
          rcases hrj : rows[depIdx]? with _ | depRow
          · simp only [hrj] at hg
            cases hg
          · simp only [hrj] at hg
            rcases hdr : getTaskRange depRow.task with _ | depRange
            · simp only [hdr] at hg
              cases hg
            · simp only [hdr] at hg
              injection hg with hg
              subst hg
              obtain ⟨hd_eq, ht_eq⟩ :=
                depLineId_decode dId p.2.task.id d t hlid
              subst hd_eq
              obtain ⟨row', hrowj, hrowid⟩ := taskIndexById_some rows dId depIdx hti
              have hrow_eq : row' = depRow := by
                rw [hrowj] at hrj
                exact Option.some_inj.mp hrj
              refine ⟨p.2, ?_, ht_eq, hdmem, ⟨taskRange, hrange⟩,
                depRow, ?_, ?_, depRange, hdr⟩
              · exact List.getElem?_mem (List.mem_enum_iff_getElem?.mp hp)
              · exact List.getElem?_mem hrj
              · rw [← hrow_eq]
                exact hrowid
  · rintro ⟨rt, hrt, hrtid, hdmem, ⟨iv, hiv⟩, rd, hrd, hrdid, ivd, hivd⟩
    rcases htr : timelineRange tasks with _ | tr
    · exfalso
      have := (timelineRange_eq_none_iff tasks).mp htr rt.task (hmemT rt hrt)
      rw [hiv] at this
      cases this
    · rcases hti : taskIndexById rows d with _ | j
      · exact absurd hrdid ((taskIndexById_none_iff rows d).mp hti rd hrd)
      · obtain ⟨row', hrowj, hrowid⟩ := taskIndexById_some rows d j hti
        have hrow_eq : row' = rd := by
          refine List.inj_on_of_nodup_map hnodup (List.getElem?_mem hrowj) hrd ?_
          rw [hrowid, hrdid]
        have hrowrange : getTaskRange row'.task = some ivd := by
          rw [hrow_eq]
          exact hivd
        obtain ⟨ri, hri⟩ := List.mem_iff_getElem?.mp hrt
        refine ⟨⟨Nat.repr d ++ "-" ++ Nat.repr rt.task.id,
          ((ivd.stop - tr.startMs : Int) : Rat) / ((rangeMsOf tr : Int) : Rat) * width,
          toY j,
          ((iv.start - tr.startMs : Int) : Rat) / ((rangeMsOf tr : Int) : Rat) * width,
          toY ri⟩, ?_, by rw [hrtid]⟩
        simp only [dependencyLines, htr, if_neg hw]
        rw [List.mem_flatten]
        refine ⟨_, List.mem_map.mpr ⟨(ri, rt), ?_, rfl⟩, ?_⟩
        · exact List.mem_enum_iff_getElem?.mpr (by simpa using hri)
        · simp only [hiv]
          refine List.mem_filterMap.mpr ⟨d, hdmem, ?_⟩
          simp [hti, hrowj, hrowrange]

unseal List.merge List.mergeSort visit visitSibs in
/-- C2 counterexample: with rendering-surface width 0 the source emits no
dependency lines at all, so the stated iff fails although both tasks are
present in the row list and both intervals resolve. -/
theorem dependencyLines_iff_counterexample :
    buildTaskRows [depA, depB] = some depRows ∧
    ¬ ((∃ l ∈ dependencyLines [depA, depB] depRows 0,
          l.id = Nat.repr 1 ++ "-" ++ Nat.repr 2) ↔
        (∃ rt ∈ depRows, rt.task.id = 2 ∧ 1 ∈ rt.task.dependsOn ∧
          (∃ iv, getTaskRange rt.task = some iv) ∧
          ∃ rd ∈ depRows, rd.task.id = 1 ∧
            ∃ ivd, getTaskRange rd.task = some ivd)) := by
  constructor
  · decide
  · intro h
    have hrhs : ∃ rt ∈ depRows, rt.task.id = 2 ∧ 1 ∈ rt.task.dependsOn ∧
        (∃ iv, getTaskRange rt.task = some iv) ∧
        ∃ rd ∈ depRows, rd.task.id = 1 ∧
          ∃ ivd, getTaskRange rd.task = some ivd := by
      refine ⟨⟨depB, 1, "1.1"⟩, by decide, rfl, by decide, ⟨⟨10, 50⟩, rfl⟩,
        ⟨depA, 0, "1"⟩, by decide, rfl, ⟨0, 100⟩, rfl⟩
    obtain ⟨l, hl, _⟩ := h.mpr hrhs
    rw [show dependencyLines [depA, depB] depRows 0 = [] from by decide] at hl
    cases hl

unseal List.merge List.mergeSort visit visitSibs in
/-- Witness for C2 (amended) at a concrete input with width 1. -/
theorem dependencyLines_iff_witness :
    (∃ l ∈ dependencyLines [depA, depB] depRows 1,
      l.id = Nat.repr 1 ++ "-" ++ Nat.repr 2) ↔
    (∃ rt ∈ depRows, rt.task.id = 2 ∧ 1 ∈ rt.task.dependsOn ∧
      (∃ iv, getTaskRange rt.task = some iv) ∧
      ∃ rd ∈ depRows, rd.task.id = 1 ∧
        ∃ ivd, getTaskRange rd.task = some ivd) :=
  dependencyLines_iff [depA, depB] depRows (by decide) (by decide) 1
    (by decide) 1 2

end GanttCore
